import Mathlib

/-!
Verification of the maxvolpy pivot-selection core against its design
specification.

The repository ships the public package interface (`maxvolpy/__init__.py`,
embedded at the end of the definitions below as `importMaxvolpy`), while the
algorithmic core (`maxvolpy/maxvol.py` and the Cython kernel `_maxvol.pyx`)
is not part of the available sources.  The algorithms `maxvol` and
`rect_maxvol` are therefore modelled from the specification (sections 4.1 to
4.4, 6 and 7): dense matrices over exact rational arithmetic, pivoted LU for
the initial pivots, Sherman-Morrison style rank-1 swap updates, and the
rank-1 append extension.  Floating-point rounding is abstracted away: the
model computes in `ℚ`, so invariants that the spec states "within
floating-point tolerance" are proved exactly.
-/

set_option maxRecDepth 8000

/-- Error taxonomy of the spec (§7): invalid parameters, rank deficiency
detected by the LU engine, and near-singular rank-1 updates. -/
inductive MvError where
  | invalidParameter
  | rankDeficient
  | numericallySingular
deriving DecidableEq

/-- Value of an `Except` computation, with a default for the error case. -/
def exceptD {ε α : Type} (d : α) (e : Except ε α) : α :=
  match e with
  | .ok x => x
  | .error _ => d

/-- Success flag of an `Except` computation. -/
def exOk {ε α : Type} (e : Except ε α) : Bool :=
  match e with
  | .ok _ => true
  | .error _ => false

/-- Accumulator step for a first-maximiser scan: a later element replaces the
current best only on strict improvement, so ties keep the earliest element
(the lowest-index tie-break rule of §4.3/§9). -/
def lamF {α : Type} (f : α → ℚ) : Option α → α → Option α :=
  fun acc x =>
    match acc with
    | none => some x
    | some y => if f y < f x then some x else acc

/-- First maximiser of `f` over a list (ties broken towards the front). -/
def listArgmax {α : Type} (f : α → ℚ) (l : List α) : Option α :=
  l.foldl (lamF f) none

/-- Executable determinant by Laplace expansion along the first row
(used because Mathlib's `Matrix.det` does not evaluate by kernel
reduction). -/
def detQ : (k : ℕ) → Matrix (Fin k) (Fin k) ℚ → ℚ
  | 0, _ => 1
  | m + 1, M =>
      ∑ j : Fin (m + 1), (-1) ^ (j : ℕ) * M 0 j * detQ m (M.submatrix Fin.succ j.succAbove)

/-- Executable inverse via the cofactor formula; total (garbage on singular
input, like rational division by zero). -/
def invQ : (k : ℕ) → Matrix (Fin k) (Fin k) ℚ → Matrix (Fin k) (Fin k) ℚ
  | 0, _ => 1
  | m + 1, M => Matrix.of fun i j =>
      (detQ (m + 1) M)⁻¹ *
        ((-1) ^ ((j : ℕ) + (i : ℕ)) * detQ m (M.submatrix j.succAbove i.succAbove))

/-- Working state of the LU engine: residual matrix being eliminated, pivot
assignment built so far, and list of already chosen rows (most recent first). -/
abbrev LuSt (n r : ℕ) : Type :=
  Matrix (Fin n) (Fin r) ℚ × (Fin r → Fin n) × List (Fin n)

/-- Modelled from the spec: one column of the Dense LU Engine (§4.1), whose
code is not in the available sources.  Standard partial pivoting: among rows
not yet chosen, pick the row maximising the current column's magnitude
(lowest index on ties), fail with `rankDeficient` on a numerically zero
pivot, and eliminate the column from the remaining rows. -/
def luColumn (n r : ℕ) (st : LuSt n r) (j : Fin r) : Except MvError (LuSt n r) :=
  match listArgmax (fun i => |st.1 i j|)
      ((List.finRange n).filter fun i => decide (i ∉ st.2.2)) with
  | none => .error .rankDeficient
  | some i =>
      if st.1 i j = 0 then .error .rankDeficient
      else .ok
        (Matrix.of fun a c =>
            if a ∈ st.2.2 ∨ a = i then st.1 a c
            else st.1 a c - st.1 a j / st.1 i j * st.1 i c,
          Function.update st.2.1 j i, i :: st.2.2)

/-- Column-by-column driver of the LU engine. -/
def luGo (n r : ℕ) : List (Fin r) → LuSt n r → Except MvError (LuSt n r)
  | [], st => .ok st
  | j :: js, st =>
      match luColumn n r st j with
      | .error e => .error e
      | .ok st2 => luGo n r js st2

/-- Modelled from the spec: the Dense LU Engine (§4.1), processing the
columns left to right starting from the input matrix. -/
def luRun (n r : ℕ) (A : Matrix (Fin n) (Fin r) ℚ) (hrn : r ≤ n) :
    Except MvError (LuSt n r) :=
  luGo n r (List.finRange r) (A, fun j => ⟨(j : ℕ), lt_of_lt_of_le j.isLt hrn⟩, [])

/-- Pivot sequence produced by the LU engine (the initial assignment if the
factorization failed; `maxvol` then surfaces the error and never uses it). -/
def luP (n r : ℕ) (A : Matrix (Fin n) (Fin r) ℚ) (hrn : r ≤ n) : Fin r → Fin n :=
  match luRun n r A hrn with
  | .ok st => st.2.1
  | .error _ => fun j => ⟨(j : ℕ), lt_of_lt_of_le j.isLt hrn⟩

/-- State of the square selector: pivot sequence and coefficient matrix. -/
abbrev MS (n r : ℕ) : Type := (Fin r → Fin n) × Matrix (Fin n) (Fin r) ℚ

/-- Modelled from the spec (§4.3 step 1): initial pivots from the LU engine
and initial coefficient matrix solving `A[P]·X = A` (here through the
explicit inverse, which the spec names as the equivalent formulation). -/
def mvInit (n r : ℕ) (A : Matrix (Fin n) (Fin r) ℚ) (hrn : r ≤ n) : MS n r :=
  (luP n r A hrn, A * invQ r (A.submatrix (luP n r A hrn) id))

/-- Scan candidates of §4.3 step 2: every entry `(i, j)` with row `i` not in
the pivot set, in row-major order. -/
def mvCands (n r : ℕ) (P : Fin r → Fin n) : List (Fin n × Fin r) :=
  ((List.finRange n).filter fun i => decide (∀ b, P b ≠ i)).flatMap
    fun i => (List.finRange r).map fun j => (i, j)

/-- Modelled from the spec (§4.3 step 2): the largest-magnitude coefficient
among rows outside the pivot set, or `none` once that maximum is at most
`tol` (convergence). -/
def findPivot (n r : ℕ) (tol : ℚ) (P : Fin r → Fin n) (C : Matrix (Fin n) (Fin r) ℚ) :
    Option (Fin n × Fin r) :=
  match listArgmax (fun p => |C p.1 p.2|) (mvCands n r P) with
  | none => none
  | some p => if |C p.1 p.2| ≤ tol then none else some p

/-- Modelled from the spec (§4.2): the Coefficient Matrix Builder's
replacement update.  Pivot position `j` is replaced by row `i`; every column
of `C` is corrected by a multiple of column `j` and column `j` is rescaled,
the Sherman-Morrison style rank-1 update driven by `C i j`. -/
def mvSwap (n r : ℕ) (P : Fin r → Fin n) (C : Matrix (Fin n) (Fin r) ℚ)
    (i : Fin n) (j : Fin r) : MS n r :=
  (Function.update P j i,
    Matrix.of fun a b => C a b - C a j * (C i b - if b = j then 1 else 0) / C i j)

/-- One iteration of the square selector as a total transition function:
identity once converged, otherwise the swap chosen by the scan. -/
def mvStep (n r : ℕ) (tol : ℚ) (s : MS n r) : MS n r :=
  match findPivot n r tol s.1 s.2 with
  | none => s
  | some p => mvSwap n r s.1 s.2 p.1 p.2

/-- Fuelled run of the square selector, returning the final state, a
convergence flag, and the number of swaps performed. -/
def mvRun (n r : ℕ) (tol : ℚ) : ℕ → MS n r → MS n r × Bool × ℕ
  | 0, s => (s, (findPivot n r tol s.1 s.2).isNone, 0)
  | f + 1, s =>
      match findPivot n r tol s.1 s.2 with
      | none => (s, true, 0)
      | some p =>
          let z := mvRun n r tol f (mvSwap n r s.1 s.2 p.1 p.2)
          (z.1, z.2.1, z.2.2 + 1)

/-- Modelled from the spec (§4.2, §4.3): the fuelled swap loop including the
builder's near-zero guard, which signals `numericallySingular` if the swap
would divide by a zero coefficient. -/
def mvLoop (n r : ℕ) (tol : ℚ) : ℕ → MS n r → Except MvError (MS n r × Bool × ℕ)
  | 0, s => .ok (s, (findPivot n r tol s.1 s.2).isNone, 0)
  | f + 1, s =>
      match findPivot n r tol s.1 s.2 with
      | none => .ok (s, true, 0)
      | some p =>
          if s.2 p.1 p.2 = 0 then .error .numericallySingular
          else
            match mvLoop n r tol f (mvSwap n r s.1 s.2 p.1 p.2) with
            | .error e => .error e
            | .ok z => .ok (z.1, z.2.1, z.2.2 + 1)

/-- Modelled from the spec: `maxvol` (§4.3, §6, §7), with the parameter
validation of the error taxonomy (`tol < 1` or `r > n` is
`invalidParameter`). -/
def maxvol (n r : ℕ) (A : Matrix (Fin n) (Fin r) ℚ) (tol : ℚ) (max_iters : ℕ) :
    Except MvError (MS n r × Bool × ℕ) :=
  if tol < 1 then .error .invalidParameter
  else if hrn : r ≤ n then
    match luRun n r A hrn with
    | .error e => .error e
    | .ok _ => mvLoop n r tol max_iters (mvInit n r A hrn)
  else .error .invalidParameter

/-- Largest absolute value of any entry of a coefficient matrix (§3 growth
bound for the square selector). -/
def mvMaxAbs (n r : ℕ) (C : Matrix (Fin n) (Fin r) ℚ) : ℚ :=
  ((List.finRange n).map fun a =>
    ((List.finRange r).map fun b => |C a b|).foldr max 0).foldr max 0

/-- Number of swaps reported by a `maxvol` result (0 on error). -/
def mvCount (n r : ℕ) (e : Except MvError (MS n r × Bool × ℕ)) : ℕ :=
  match e with
  | .ok z => z.2.2
  | .error _ => 0

/-- State of the rectangular extender: a pivot sequence of length `k` and an
`n × k` coefficient matrix. -/
structure RState (n : ℕ) where
  k : ℕ
  P : Fin k → Fin n
  C : Matrix (Fin n) (Fin k) ℚ

/-- Entry of the coefficient matrix addressed with a plain numeral column
index (0 outside the actual width), for stating concrete facts. -/
def RState.Centry {n : ℕ} (s : RState n) (a : Fin n) (b : ℕ) : ℚ :=
  if h : b < s.k then s.C a ⟨b, h⟩ else 0

/-- Pivot at a plain numeral position (`n` outside the actual width). -/
def RState.Pentry {n : ℕ} (s : RState n) (b : ℕ) : ℕ :=
  if h : b < s.k then (s.P ⟨b, h⟩ : ℕ) else n

/-- Squared Euclidean norm of row `a` of the coefficient matrix. -/
def rowNormSq {n : ℕ} (s : RState n) (a : Fin n) : ℚ :=
  ∑ b, s.C a b ^ 2

/-- Inner product of rows `a` and `i` of the coefficient matrix. -/
def rdot {n : ℕ} (s : RState n) (a i : Fin n) : ℚ :=
  ∑ b, s.C a b * s.C i b

/-- Largest squared row norm of the coefficient matrix (§3 growth bound for
the rectangular extender, squared to stay in rational arithmetic). -/
def maxNormSq {n : ℕ} (s : RState n) : ℚ :=
  ((List.finRange n).map fun a => rowNormSq s a).foldr max 0

/-- Rows outside the current pivot set, in index order. -/
def rectCands {n : ℕ} (s : RState n) : List (Fin n) :=
  (List.finRange n).filter fun i => decide (∀ b, s.P b ≠ i)

/-- Hypothetical largest squared row norm after appending row `i`, computed
cheaply from the current coefficient matrix as §4.4 prescribes: appending
`i` lowers each squared row norm by `⟨C_a, C_i⟩² / (1 + ‖C_i‖²)`. -/
def hypoMax {n : ℕ} (s : RState n) (i : Fin n) : ℚ :=
  ((List.finRange n).map fun a =>
    rowNormSq s a - rdot s a i ^ 2 / (1 + rowNormSq s i)).foldr max 0

/-- Modelled from the spec (§4.4): select the row outside the pivot set whose
hypothetical append minimizes the resulting largest row norm, ties broken by
lowest index. -/
def rectPick {n : ℕ} (s : RState n) : Option (Fin n) :=
  listArgmax (fun i => -hypoMax s i) (rectCands s)

/-- Modelled from the spec (§4.2): the Coefficient Matrix Builder's append
update, the rank-1 extension computed from row `i` of the current `C` with
the rescaling factor `1 / (1 + ‖C_i‖²)`. -/
def rectAppend {n : ℕ} (s : RState n) (i : Fin n) : RState n :=
  ⟨s.k + 1, Fin.snoc s.P i,
    Matrix.of fun a =>
      Fin.snoc
        (fun b => s.C a b - 1 / (1 + rdot s i i) * rdot s a i * s.C i b)
        (1 / (1 + rdot s i i) * rdot s a i)⟩

/-- Growth condition of the rectangular loop (§4.4): keep appending while the
pivot set is below `maxK` and either below `minK` or the largest squared row
norm still exceeds `tol²`. -/
def rectGrow {n : ℕ} (tol2 : ℚ) (minK maxK : ℕ) (s : RState n) : Bool :=
  decide (s.k < maxK ∧ (s.k < minK ∨ tol2 < maxNormSq s))

/-- Fuelled append loop of the rectangular extender, also counting the
number of appends performed. -/
def rectLoop (n : ℕ) (tol2 : ℚ) (minK maxK : ℕ) : ℕ → RState n → RState n × ℕ
  | 0, s => (s, 0)
  | f + 1, s =>
      if rectGrow tol2 minK maxK s then
        match rectPick s with
        | none => (s, 0)
        | some i =>
            let z := rectLoop n tol2 minK maxK f (rectAppend s i)
            (z.1, z.2 + 1)
      else (s, 0)

/-- One iteration of the rectangular extender as a total transition
function: identity once stopped, otherwise the chosen append. -/
def rectStep (n : ℕ) (tol2 : ℚ) (minK maxK : ℕ) (s : RState n) : RState n :=
  if rectGrow tol2 minK maxK s then
    match rectPick s with
    | none => s
    | some i => rectAppend s i
  else s

/-- Modelled from the spec (§4.4): the rectangular extender starts from the
square selector's result (run with the start parameters). -/
def rectInit (n r : ℕ) (A : Matrix (Fin n) (Fin r) ℚ) (hrn : r ≤ n)
    (start_tol : ℚ) (start_iters : ℕ) : RState n :=
  ⟨r, (mvRun n r start_tol start_iters (mvInit n r A hrn)).1.1,
    (mvRun n r start_tol start_iters (mvInit n r A hrn)).1.2⟩

/-- Modelled from the spec: `rect_maxvol` (§4.4, §6, §7), validating the
error-taxonomy conditions (`tol < 1`, `min_k > max_k`, `max_k > n`,
`r > n`), then running the square phase followed by the append loop. -/
def rect_maxvol (n r : ℕ) (A : Matrix (Fin n) (Fin r) ℚ) (tol : ℚ)
    (minK maxK : ℕ) (start_tol : ℚ) (start_iters : ℕ) :
    Except MvError (RState n × ℕ) :=
  if tol < 1 ∨ minK > maxK ∨ maxK > n then .error .invalidParameter
  else if hrn : r ≤ n then
    match luRun n r A hrn with
    | .error e => .error e
    | .ok _ =>
        match mvLoop n r start_tol start_iters (mvInit n r A hrn) with
        | .error e => .error e
        | .ok _ =>
            .ok (rectLoop n (tol * tol) minK maxK maxK
              (rectInit n r A hrn start_tol start_iters))
  else .error .invalidParameter

/-- Final pivot count of a `rect_maxvol` result (`r` on error). -/
def rectK (n r : ℕ) (e : Except MvError (RState n × ℕ)) : ℕ :=
  match e with
  | .ok z => z.1.k
  | .error _ => r

/-- Reconstruction invariant of the data model (§3): the coefficient matrix
times the pivot submatrix reproduces the input exactly. -/
def Recon (n r k : ℕ) (A : Matrix (Fin n) (Fin r) ℚ) (P : Fin k → Fin n)
    (C : Matrix (Fin n) (Fin k) ℚ) : Prop :=
  C * A.submatrix P id = A

/-- Exact basis-row invariant of the data model (§3): row `P b` of `C` is the
`b`-th standard basis row. -/
def BasisRows (n r k : ℕ) (P : Fin k → Fin n) (C : Matrix (Fin n) (Fin k) ℚ) : Prop :=
  ∀ (b c : Fin k), C (P b) c = if b = c then 1 else 0

/-- Invariant bundle of the square selector: reconstruction, distinct
pivots, and exact basis rows. -/
def MInv (n r : ℕ) (A : Matrix (Fin n) (Fin r) ℚ) (s : MS n r) : Prop :=
  Recon n r r A s.1 s.2 ∧ Function.Injective s.1 ∧ BasisRows n r r s.1 s.2

/-- Invariant bundle of the rectangular extender: reconstruction and
distinct pivots. -/
def RInv (n r : ℕ) (A : Matrix (Fin n) (Fin r) ℚ) (s : RState n) : Prop :=
  s.C * A.submatrix s.P id = A ∧ Function.Injective s.P

/-- Backend selected for a public name at package import time. -/
inductive PyBackend where
  | cCompiled
  | purePython
deriving DecidableEq

/-- Warning categories the package import can emit. -/
inductive PyWarning where
  | runtimeWarning
  | userWarning
deriving DecidableEq

/-- Module state after importing the package: what the two public names are
bound to, and the warnings emitted during initialization. -/
structure PyModuleState where
  maxvolBinding : PyBackend
  rect_maxvolBinding : PyBackend
  warnings : List PyWarning

/-- Shallow embedding of `src/maxvolpy/__init__.py`: the one-time import of
the package tries the compiled `_maxvol` extension and, if that import
fails, emits a single `RuntimeWarning` and falls back to the pure-Python
`maxvol` module for both public names. -/
def importMaxvolpy (cExtensionImportable : Bool) : PyModuleState :=
  if cExtensionImportable then
    ⟨.cCompiled, .cCompiled, []⟩
  else
    ⟨.purePython, .purePython, [.runtimeWarning]⟩

/-- Concrete 2 by 2 input used to exercise the model. -/
def exA : Matrix (Fin 2) (Fin 2) ℚ := !![1, 2; 3, 4]

/-- Concrete 3 by 2 input whose rectangular extension appends row 2. -/
def exB : Matrix (Fin 3) (Fin 2) ℚ := !![1, 0; 0, 1; 9/10, 9/10]

/-- Concrete 6 by 3 input on which the square selector's largest coefficient
magnitude increases between two consecutive swap iterations. -/
def exC : Matrix (Fin 6) (Fin 3) ℚ :=
  !![8, -4, 4; 0, -5, -5; 8, -9, 2; 0, -1, -5; -6, 4, 2; 0, 3, 6]

/-- Concrete 2 by 1 input used for witnesses. -/
def exD : Matrix (Fin 2) (Fin 1) ℚ := !![3; 5]

/-! ### Basic lemmas: first-maximiser scan, fold-max, determinant, inverse -/

theorem lamF_isSome {α : Type} (f : α → ℚ) (acc : Option α) (x : α) :
    (lamF f acc x).isSome := by
  cases acc with
  | none => rfl
  | some y =>
      unfold lamF
      by_cases h : f y < f x <;> simp [h]

theorem foldl_lamF_isSome {α : Type} (f : α → ℚ) :
    ∀ (l : List α) (acc : Option α), acc.isSome → (l.foldl (lamF f) acc).isSome
  | [], _, h => h
  | x :: xs, acc, _ => foldl_lamF_isSome f xs (lamF f acc x) (lamF_isSome f acc x)

theorem listArgmax_isSome {α : Type} (f : α → ℚ) (x : α) (xs : List α) :
    (listArgmax f (x :: xs)).isSome := by
  unfold listArgmax
  exact foldl_lamF_isSome f xs (lamF f none x) (lamF_isSome f none x)

theorem lamF_cases {α : Type} (f : α → ℚ) (acc : Option α) (x : α) :
    lamF f acc x = some x ∨ lamF f acc x = acc := by
  cases acc with
  | none => exact Or.inl rfl
  | some y =>
      unfold lamF
      by_cases h : f y < f x <;> simp [h]

theorem foldl_lamF_mem {α : Type} (f : α → ℚ) :
    ∀ (l : List α) (acc : Option α) (y : α),
      l.foldl (lamF f) acc = some y → acc = some y ∨ y ∈ l
  | [], _, _, h => Or.inl h
  | x :: xs, acc, y, h => by
      rcases foldl_lamF_mem f xs (lamF f acc x) y h with h1 | h1
      · rcases lamF_cases f acc x with h2 | h2
        · rw [h2] at h1
          right
          rw [Option.some.injEq] at h1
          rw [← h1]
          exact List.mem_cons_self x xs
        · rw [h2] at h1
          exact Or.inl h1
      · exact Or.inr (List.mem_cons_of_mem x h1)

theorem listArgmax_mem {α : Type} (f : α → ℚ) (l : List α) (y : α)
    (h : listArgmax f l = some y) : y ∈ l := by
  rcases foldl_lamF_mem f l none y h with h1 | h1
  · exact absurd h1 (by simp)
  · exact h1

theorem foldl_lamF_le {α : Type} (f : α → ℚ) :
    ∀ (l : List α) (acc : Option α) (y : α),
      l.foldl (lamF f) acc = some y →
        (∀ x ∈ l, f x ≤ f y) ∧ (∀ z, acc = some z → f z ≤ f y)
  | [], acc, y, h => by
      have h2 : acc = some y := h
      refine ⟨fun x hx => absurd hx (by simp), fun z hz => ?_⟩
      rw [hz] at h2
      rw [Option.some.injEq] at h2
      exact le_of_eq (by rw [h2])
  | x :: xs, acc, y, h => by
      obtain ⟨ih1, ih2⟩ := foldl_lamF_le f xs (lamF f acc x) y h
      have hx : f x ≤ f y := by
        cases acc with
        | none => exact ih2 x rfl
        | some z =>
            by_cases hc : f z < f x
            · exact ih2 x (by simp [lamF, hc])
            · exact le_trans (le_of_not_lt hc) (ih2 z (by simp [lamF, hc]))
      refine ⟨fun w hw => ?_, fun z hz => ?_⟩
      · rcases List.mem_cons.1 hw with h2 | h2
        · rw [h2]; exact hx
        · exact ih1 w h2
      · cases acc with
        | none => exact absurd hz (by simp)
        | some z2 =>
            rw [Option.some.injEq] at hz
            by_cases hc : f z2 < f x
            · have := ih2 x (by simp [lamF, hc])
              rw [← hz]
              exact le_trans (le_of_lt hc) this
            · rw [← hz]
              exact ih2 z2 (by simp [lamF, hc])

theorem listArgmax_le {α : Type} (f : α → ℚ) (l : List α) (y : α)
    (h : listArgmax f l = some y) : ∀ x ∈ l, f x ≤ f y :=
  (foldl_lamF_le f l none y h).1

theorem le_foldr_max (l : List ℚ) (x : ℚ) (hx : x ∈ l) : x ≤ l.foldr max 0 := by
  induction l with
  | nil => exact absurd hx (by simp)
  | cons a as ih =>
      rcases List.mem_cons.1 hx with h | h
      · rw [h]; exact le_max_left a (as.foldr max 0)
      · exact le_trans (ih h) (le_max_right a (as.foldr max 0))

theorem foldr_max_map_le {α : Type} (l : List α) (f g : α → ℚ)
    (h : ∀ x ∈ l, f x ≤ g x) : (l.map f).foldr max 0 ≤ (l.map g).foldr max 0 := by
  induction l with
  | nil => simp
  | cons a as ih =>
      simp only [List.map_cons, List.foldr_cons]
      exact max_le_max (h a (List.mem_cons_self a as))
        (ih fun x hx => h x (List.mem_cons_of_mem a hx))

theorem detQ_eq_det : ∀ (k : ℕ) (M : Matrix (Fin k) (Fin k) ℚ), detQ k M = M.det
  | 0, M => by simp [detQ, Matrix.det_fin_zero]
  | m + 1, M => by
      rw [Matrix.det_succ_row_zero, detQ]
      exact Finset.sum_congr rfl fun j _ => by rw [detQ_eq_det m]

theorem invQ_eq_smul_adjugate :
    ∀ (k : ℕ) (M : Matrix (Fin k) (Fin k) ℚ), invQ k M = (M.det)⁻¹ • M.adjugate
  | 0, _ => Subsingleton.elim _ _
  | m + 1, M => by
      ext i j
      rw [invQ, Matrix.of_apply, Matrix.smul_apply,
        Matrix.adjugate_fin_succ_eq_det_submatrix, detQ_eq_det, detQ_eq_det, smul_eq_mul]

theorem mul_invQ {k : ℕ} (M : Matrix (Fin k) (Fin k) ℚ) (h : M.det ≠ 0) :
    M * invQ k M = 1 := by
  rw [invQ_eq_smul_adjugate, Matrix.mul_smul, Matrix.mul_adjugate, smul_smul,
    inv_mul_cancel₀ h, one_smul]

theorem invQ_mul {k : ℕ} (M : Matrix (Fin k) (Fin k) ℚ) (h : M.det ≠ 0) :
    invQ k M * M = 1 := by
  rw [invQ_eq_smul_adjugate, Matrix.smul_mul, Matrix.adjugate_mul, smul_smul,
    inv_mul_cancel₀ h, one_smul]

/-! ### LU engine lemmas: error classification and pivot distinctness -/

theorem luColumn_ok (n r : ℕ) (st st2 : LuSt n r) (j : Fin r)
    (h : luColumn n r st j = .ok st2) :
    ∃ i : Fin n, i ∉ st.2.2 ∧ st2.2.1 = Function.update st.2.1 j i ∧
      st2.2.2 = i :: st.2.2 := by
  unfold luColumn at h
  split at h
  · exact absurd h (by simp)
  · rename_i i harg
    split at h
    · exact absurd h (by simp)
    · have h2 := Except.ok.inj h
      refine ⟨i, ?_, ?_, ?_⟩
      · have hm := listArgmax_mem _ _ _ harg
        have := (List.mem_filter.1 hm).2
        simpa using this
      · rw [← h2]
      · rw [← h2]

theorem luColumn_error (n r : ℕ) (st : LuSt n r) (j : Fin r) (e : MvError)
    (h : luColumn n r st j = .error e) : e = .rankDeficient := by
  unfold luColumn at h
  split at h
  · exact (Except.error.inj h).symm
  · split at h
    · exact (Except.error.inj h).symm
    · exact absurd h (by simp)

theorem luGo_error (n r : ℕ) :
    ∀ (js : List (Fin r)) (st : LuSt n r) (e : MvError),
      luGo n r js st = .error e → e = .rankDeficient
  | [], _, _, h => absurd h (by simp [luGo])
  | j :: js, st, e, h => by
      unfold luGo at h
      split at h
      · rename_i e2 hcol
        have h1 : e2 = e := Except.error.inj h
        rw [← h1]
        exact luColumn_error n r st j e2 hcol
      · exact luGo_error n r js _ e h

theorem luGo_inj (n r : ℕ) :
    ∀ (js : List (Fin r)) (st st2 : LuSt n r),
      (∀ j1 j2 : Fin r, j1 ∉ js → j2 ∉ js → st.2.1 j1 = st.2.1 j2 → j1 = j2) →
      (∀ j : Fin r, j ∉ js → st.2.1 j ∈ st.2.2) →
      luGo n r js st = .ok st2 →
      Function.Injective st2.2.1
  | [], st, st2, hinj, _, heq => by
      have h2 : st2 = st := by
        have h3 : Except.ok (ε := MvError) st = Except.ok st2 := heq
        exact (Except.ok.inj h3).symm
      rw [h2]
      exact fun a b hab => hinj a b (by simp) (by simp) hab
  | j :: js, st, st2, hinj, hmem, heq => by
      unfold luGo at heq
      split at heq
      · exact absurd heq (by simp)
      · rename_i stm hcol
        obtain ⟨i, hi, hP, hch⟩ := luColumn_ok n r st stm j hcol
        refine luGo_inj n r js stm st2 ?_ ?_ heq
        · intro j1 j2 h1 h2 he
          rw [hP] at he
          by_cases e1 : j1 = j <;> by_cases e2 : j2 = j
          · rw [e1, e2]
          · rw [e1] at he
            rw [Function.update_same, Function.update_noteq e2] at he
            exact absurd (hmem j2 (by simp [e2, h2]) : st.2.1 j2 ∈ st.2.2)
              (by rw [← he]; exact hi)
          · rw [e2] at he
            rw [Function.update_same, Function.update_noteq e1] at he
            exact absurd (hmem j1 (by simp [e1, h1]) : st.2.1 j1 ∈ st.2.2)
              (by rw [he]; exact hi)
          · rw [Function.update_noteq e1, Function.update_noteq e2] at he
            exact hinj j1 j2 (by simp [e1, h1]) (by simp [e2, h2]) he
        · intro j2 h2
          rw [hP, hch]
          by_cases e2 : j2 = j
          · rw [e2, Function.update_same]
            exact List.mem_cons_self i st.2.2
          · rw [Function.update_noteq e2]
            exact List.mem_cons_of_mem i (hmem j2 (by simp [e2, h2]))

theorem luRun_inj (n r : ℕ) (A : Matrix (Fin n) (Fin r) ℚ) (hrn : r ≤ n)
    (st2 : LuSt n r) (h : luRun n r A hrn = .ok st2) :
    Function.Injective st2.2.1 := by
  refine luGo_inj n r (List.finRange r) _ st2 ?_ ?_ h
  · intro j1 j2 _ _ he
    simp only [Fin.mk.injEq] at he
    exact Fin.ext he
  · intro j hj
    exact absurd (List.mem_finRange j) hj

theorem luP_inj (n r : ℕ) (A : Matrix (Fin n) (Fin r) ℚ) (hrn : r ≤ n) :
    Function.Injective (luP n r A hrn) := by
  unfold luP
  split
  · rename_i st hst
    exact luRun_inj n r A hrn st hst
  · intro j1 j2 he
    simp only [Fin.mk.injEq] at he
    exact Fin.ext he

/-! ### Scan lemmas and the initial invariant of the square selector -/

theorem mvCands_mem (n r : ℕ) (P : Fin r → Fin n) (i : Fin n) (j : Fin r) :
    (i, j) ∈ mvCands n r P ↔ (∀ b, P b ≠ i) := by
  constructor
  · intro h
    rcases List.mem_flatMap.1 h with ⟨i2, hi2, hj⟩
    rcases List.mem_map.1 hj with ⟨j2, _, he⟩
    have hii : i2 = i := congrArg Prod.fst he
    rw [hii] at hi2
    have := (List.mem_filter.1 hi2).2
    simpa using this
  · intro h
    refine List.mem_flatMap.2 ⟨i, List.mem_filter.2 ⟨List.mem_finRange i, by simpa using h⟩,
      List.mem_map.2 ⟨j, List.mem_finRange j, rfl⟩⟩

theorem findPivot_some (n r : ℕ) (tol : ℚ) (P : Fin r → Fin n)
    (C : Matrix (Fin n) (Fin r) ℚ) (p : Fin n × Fin r)
    (h : findPivot n r tol P C = some p) :
    (∀ b, P b ≠ p.1) ∧ tol < |C p.1 p.2| := by
  unfold findPivot at h
  split at h
  · exact absurd h (by simp)
  · rename_i q harg
    split at h
    · exact absurd h (by simp)
    · rename_i hq
      have hpq : q = p := Option.some.inj h
      rw [hpq] at harg hq
      have hm := listArgmax_mem _ _ _ harg
      refine ⟨?_, lt_of_not_le hq⟩
      have := (mvCands_mem n r P p.1 p.2).1 (by simpa using hm)
      exact this

theorem findPivot_none (n r : ℕ) (tol : ℚ) (P : Fin r → Fin n)
    (C : Matrix (Fin n) (Fin r) ℚ) (h : findPivot n r tol P C = none)
    (i : Fin n) (hi : ∀ b, P b ≠ i) (j : Fin r) : |C i j| ≤ tol := by
  unfold findPivot at h
  split at h
  · rename_i harg
    have hmem : (i, j) ∈ mvCands n r P := (mvCands_mem n r P i j).2 hi
    cases hc : mvCands n r P with
    | nil => rw [hc] at hmem; exact absurd hmem (by simp)
    | cons x xs =>
        rw [hc] at harg
        have := listArgmax_isSome (fun p : Fin n × Fin r => |C p.1 p.2|) x xs
        rw [harg] at this
        exact absurd this (by simp)
  · rename_i q harg
    split at h
    · rename_i hq
      have hmem : (i, j) ∈ mvCands n r P := (mvCands_mem n r P i j).2 hi
      exact le_trans (listArgmax_le _ _ _ harg (i, j) hmem) hq
    · exact absurd h (by simp)

theorem mvInit_recon (n r : ℕ) (A : Matrix (Fin n) (Fin r) ℚ) (hrn : r ≤ n)
    (hdet : detQ r (A.submatrix (luP n r A hrn) id) ≠ 0) :
    Recon n r r A (mvInit n r A hrn).1 (mvInit n r A hrn).2 := by
  have hdet2 : (A.submatrix (luP n r A hrn) id).det ≠ 0 := by
    rwa [detQ_eq_det] at hdet
  unfold Recon mvInit
  rw [Matrix.mul_assoc, invQ_mul _ hdet2, Matrix.mul_one]

theorem mvInit_basis (n r : ℕ) (A : Matrix (Fin n) (Fin r) ℚ) (hrn : r ≤ n)
    (hdet : detQ r (A.submatrix (luP n r A hrn) id) ≠ 0) :
    BasisRows n r r (mvInit n r A hrn).1 (mvInit n r A hrn).2 := by
  have hdet2 : (A.submatrix (luP n r A hrn) id).det ≠ 0 := by
    rwa [detQ_eq_det] at hdet
  intro b c
  have h1 : (mvInit n r A hrn).2 ((mvInit n r A hrn).1 b) c =
      (A.submatrix (luP n r A hrn) id * invQ r (A.submatrix (luP n r A hrn) id)) b c := by
    show (A * invQ r (A.submatrix (luP n r A hrn) id)) (luP n r A hrn b) c = _
    rw [Matrix.mul_apply, Matrix.mul_apply]
    exact Finset.sum_congr rfl fun d _ => by rw [Matrix.submatrix_apply, id]
  rw [h1, mul_invQ _ hdet2, Matrix.one_apply]

theorem mvInit_MInv (n r : ℕ) (A : Matrix (Fin n) (Fin r) ℚ) (hrn : r ≤ n)
    (hdet : detQ r (A.submatrix (luP n r A hrn) id) ≠ 0) :
    MInv n r A (mvInit n r A hrn) :=
  ⟨mvInit_recon n r A hrn hdet, luP_inj n r A hrn, mvInit_basis n r A hrn hdet⟩

/-! ### Swap update lemmas: the square selector's invariants -/

theorem recon_mvSwap (n r : ℕ) (A : Matrix (Fin n) (Fin r) ℚ) (P : Fin r → Fin n)
    (C : Matrix (Fin n) (Fin r) ℚ) (i : Fin n) (j : Fin r)
    (hC : Recon n r r A P C) (hne : C i j ≠ 0) :
    Recon n r r A (mvSwap n r P C i j).1 (mvSwap n r P C i j).2 := by
  have hrow : ∀ (a : Fin n) (c : Fin r), ∑ b, C a b * A (P b) c = A a c := by
    intro a c
    have h1 := congrFun (congrFun hC a) c
    rw [Matrix.mul_apply] at h1
    simpa using h1
  show (Matrix.of fun a b => C a b - C a j * (C i b - if b = j then 1 else 0) / C i j) *
      A.submatrix (Function.update P j i) id = A
  ext a c
  rw [Matrix.mul_apply]
  have hsplit : ∀ g : Fin r → ℚ,
      ∑ b, g b = g j + ∑ b ∈ Finset.univ.erase j, g b :=
    fun g => (Finset.add_sum_erase Finset.univ g (Finset.mem_univ j)).symm
  rw [hsplit]
  have herase : ∑ b ∈ Finset.univ.erase j,
      (Matrix.of fun a b => C a b - C a j * (C i b - if b = j then 1 else 0) / C i j) a b *
        A.submatrix (Function.update P j i) id b c
      = (∑ b ∈ Finset.univ.erase j, C a b * A (P b) c) -
          C a j / C i j * ∑ b ∈ Finset.univ.erase j, C i b * A (P b) c := by
    rw [Finset.mul_sum, ← Finset.sum_sub_distrib]
    refine Finset.sum_congr rfl fun b hb => ?_
    have hbj : b ≠ j := Finset.ne_of_mem_erase hb
    rw [Matrix.of_apply, Matrix.submatrix_apply, id_eq, Function.update_noteq hbj,
      if_neg hbj]
    ring
  rw [herase]
  have h1 : ∑ b ∈ Finset.univ.erase j, C a b * A (P b) c = A a c - C a j * A (P j) c := by
    have h2 := hsplit (fun b => C a b * A (P b) c)
    rw [hrow a c] at h2
    linarith
  have h2 : ∑ b ∈ Finset.univ.erase j, C i b * A (P b) c = A i c - C i j * A (P j) c := by
    have h3 := hsplit (fun b => C i b * A (P b) c)
    rw [hrow i c] at h3
    linarith
  rw [h1, h2, Matrix.of_apply, Matrix.submatrix_apply, id_eq, Function.update_same,
    if_pos rfl]
  field_simp
  ring

theorem basis_mvSwap (n r : ℕ) (P : Fin r → Fin n) (C : Matrix (Fin n) (Fin r) ℚ)
    (i : Fin n) (j : Fin r) (hB : BasisRows n r r P C) (hi : ∀ b, P b ≠ i)
    (hne : C i j ≠ 0) :
    BasisRows n r r (mvSwap n r P C i j).1 (mvSwap n r P C i j).2 := by
  intro b c
  show (Matrix.of fun a b => C a b - C a j * (C i b - if b = j then 1 else 0) / C i j)
      (Function.update P j i b) c = if b = c then 1 else 0
  by_cases hbj : b = j
  · rw [hbj, Function.update_same, Matrix.of_apply]
    have h1 : C i j * (C i c - if c = j then 1 else 0) / C i j =
        C i c - if c = j then 1 else 0 := mul_div_cancel_left₀ _ hne
    rw [h1]
    by_cases hcj : c = j
    · rw [hcj]
      simp
    · rw [if_neg hcj, if_neg (fun hh => hcj (Eq.symm hh))]
      ring
  · rw [Function.update_noteq hbj, Matrix.of_apply, hB b c, hB b j, if_neg hbj]
    simp

theorem inj_update (n r : ℕ) (P : Fin r → Fin n) (hP : Function.Injective P)
    (i : Fin n) (hi : ∀ b, P b ≠ i) (j : Fin r) :
    Function.Injective (Function.update P j i) := by
  intro a b hab
  by_cases ha : a = j <;> by_cases hb : b = j
  · rw [ha, hb]
  · rw [ha, Function.update_same, Function.update_noteq hb] at hab
    exact absurd hab.symm (hi b)
  · rw [hb, Function.update_same, Function.update_noteq ha] at hab
    exact absurd hab (hi a)
  · rw [Function.update_noteq ha, Function.update_noteq hb] at hab
    exact hP hab

theorem minv_mvStep (n r : ℕ) (A : Matrix (Fin n) (Fin r) ℚ) (tol : ℚ)
    (htol : 1 ≤ tol) (s : MS n r) (h : MInv n r A s) :
    MInv n r A (mvStep n r tol s) := by
  obtain ⟨hrec, hinj, hbas⟩ := h
  unfold mvStep
  cases hfp : findPivot n r tol s.1 s.2 with
  | none => exact ⟨hrec, hinj, hbas⟩
  | some p =>
      obtain ⟨hip, hlt⟩ := findPivot_some n r tol s.1 s.2 p hfp
      have hne : s.2 p.1 p.2 ≠ 0 := by
        intro h0
        rw [h0, abs_zero] at hlt
        linarith
      exact ⟨recon_mvSwap n r A s.1 s.2 p.1 p.2 hrec hne,
        inj_update n r s.1 hinj p.1 hip p.2,
        basis_mvSwap n r s.1 s.2 p.1 p.2 hbas hip hne⟩

theorem minv_iterate (n r : ℕ) (A : Matrix (Fin n) (Fin r) ℚ) (tol : ℚ)
    (htol : 1 ≤ tol) (s : MS n r) (h : MInv n r A s) :
    ∀ t : ℕ, MInv n r A ((mvStep n r tol)^[t] s) := by
  intro t
  induction t with
  | zero => exact h
  | succ t ih =>
      rw [Function.iterate_succ_apply']
      exact minv_mvStep n r A tol htol _ ih

theorem inj_mvStep (n r : ℕ) (tol : ℚ) (s : MS n r)
    (hinj : Function.Injective s.1) : Function.Injective (mvStep n r tol s).1 := by
  unfold mvStep
  cases hfp : findPivot n r tol s.1 s.2 with
  | none => exact hinj
  | some p =>
      obtain ⟨hip, _⟩ := findPivot_some n r tol s.1 s.2 p hfp
      exact inj_update n r s.1 hinj p.1 hip p.2

theorem inj_mvStep_iterate (n r : ℕ) (tol : ℚ) (s : MS n r)
    (hinj : Function.Injective s.1) :
    ∀ t : ℕ, Function.Injective ((mvStep n r tol)^[t] s).1 := by
  intro t
  induction t with
  | zero => exact hinj
  | succ t ih =>
      rw [Function.iterate_succ_apply']
      exact inj_mvStep n r tol _ ih

/-! ### Run lemmas for the square selector loop -/

theorem exOk_ok {ε α : Type} (e : Except ε α) (h : exOk e = true) :
    ∃ x, e = .ok x := by
  cases e with
  | ok x => exact ⟨x, rfl⟩
  | error _ => exact absurd h (by simp [exOk])

theorem mvRun_spec (n r : ℕ) (tol : ℚ) :
    ∀ (f : ℕ) (s : MS n r),
      (mvRun n r tol f s).1 = (mvStep n r tol)^[(mvRun n r tol f s).2.2] s ∧
      (mvRun n r tol f s).2.2 ≤ f ∧
      ((mvRun n r tol f s).2.1 = false → (mvRun n r tol f s).2.2 = f) ∧
      ((mvRun n r tol f s).2.1 = true →
        findPivot n r tol (mvRun n r tol f s).1.1 (mvRun n r tol f s).1.2 = none)
  | 0, s => by
      refine ⟨rfl, le_refl 0, fun _ => rfl, fun hconv => ?_⟩
      have h2 : (findPivot n r tol s.1 s.2).isNone = true := hconv
      exact Option.isNone_iff_eq_none.1 h2
  | f + 1, s => by
      cases hfp : findPivot n r tol s.1 s.2 with
      | none =>
          have he : mvRun n r tol (f + 1) s = (s, true, 0) := by
            conv_lhs => rw [mvRun]
            rw [hfp]
          rw [he]
          exact ⟨rfl, Nat.zero_le _, fun hf => absurd hf (by simp), fun _ => hfp⟩
      | some p =>
          have he : mvRun n r tol (f + 1) s =
              ((mvRun n r tol f (mvSwap n r s.1 s.2 p.1 p.2)).1,
                (mvRun n r tol f (mvSwap n r s.1 s.2 p.1 p.2)).2.1,
                (mvRun n r tol f (mvSwap n r s.1 s.2 p.1 p.2)).2.2 + 1) := by
            conv_lhs => rw [mvRun]
            rw [hfp]
          obtain ⟨ih1, ih2, ih3, ih4⟩ := mvRun_spec n r tol f (mvSwap n r s.1 s.2 p.1 p.2)
          rw [he]
          have hstep : mvSwap n r s.1 s.2 p.1 p.2 = mvStep n r tol s := by
            unfold mvStep
            rw [hfp]
          refine ⟨?_, Nat.succ_le_succ ih2, fun hf => by rw [ih3 hf], fun hc => ih4 hc⟩
          rw [ih1, hstep, ← Function.iterate_succ_apply]

theorem mvRun_converged (n r : ℕ) (tol : ℚ) (s : MS n r)
    (hfp : findPivot n r tol s.1 s.2 = none) :
    ∀ f : ℕ, mvRun n r tol f s = (s, true, 0)
  | 0 => by
      conv_lhs => rw [mvRun]
      rw [hfp]
      rfl
  | f + 1 => by
      conv_lhs => rw [mvRun]
      rw [hfp]

theorem mvLoop_ok_val (n r : ℕ) (tol : ℚ) :
    ∀ (f : ℕ) (s : MS n r) (z : MS n r × Bool × ℕ),
      mvLoop n r tol f s = .ok z → z = mvRun n r tol f s
  | 0, s, z, h => by
      have h2 : Except.ok (ε := MvError) (s, (findPivot n r tol s.1 s.2).isNone, 0) =
          .ok z := h
      rw [← Except.ok.inj h2]
      rfl
  | f + 1, s, z, h => by
      unfold mvLoop at h
      split at h
      · rename_i hfp
        rw [← Except.ok.inj h]
        conv_rhs => rw [mvRun]
        rw [hfp]
      · rename_i p hfp
        split at h
        · exact absurd h (by simp)
        · split at h
          · exact absurd h (by simp)
          · rename_i z2 hz2
            have hzz := Except.ok.inj h
            have hval := mvLoop_ok_val n r tol f (mvSwap n r s.1 s.2 p.1 p.2) z2 hz2
            rw [← hzz, hval]
            conv_rhs => rw [mvRun]
            rw [hfp]

theorem mvLoop_ok_of_tol (n r : ℕ) (tol : ℚ) (htol : 1 ≤ tol) :
    ∀ (f : ℕ) (s : MS n r), mvLoop n r tol f s = .ok (mvRun n r tol f s)
  | 0, _ => rfl
  | f + 1, s => by
      cases hfp : findPivot n r tol s.1 s.2 with
      | none =>
          rw [mvRun_converged n r tol s hfp]
          conv_lhs => rw [mvLoop]
          rw [hfp]
      | some p =>
          obtain ⟨_, hlt⟩ := findPivot_some n r tol s.1 s.2 p hfp
          have hne : s.2 p.1 p.2 ≠ 0 := by
            intro h0
            rw [h0, abs_zero] at hlt
            linarith
          have ih := mvLoop_ok_of_tol n r tol htol f (mvSwap n r s.1 s.2 p.1 p.2)
          conv_lhs => rw [mvLoop]
          conv_rhs => rw [mvRun]
          rw [hfp]
          simp only [if_neg hne]
          rw [ih]

theorem mvLoop_error (n r : ℕ) (tol : ℚ) :
    ∀ (f : ℕ) (s : MS n r) (e : MvError),
      mvLoop n r tol f s = .error e → e = .numericallySingular
  | 0, s, e, h => by
      have h2 : Except.ok (ε := MvError) (s, (findPivot n r tol s.1 s.2).isNone, 0) =
          .error e := h
      exact absurd h2 (by simp)
  | f + 1, s, e, h => by
      unfold mvLoop at h
      split at h
      · exact absurd h (by simp)
      · split at h
        · exact (Except.error.inj h).symm
        · split at h
          · rename_i e2 hz
            have h1 : e2 = e := Except.error.inj h
            rw [← h1]
            exact mvLoop_error n r tol f _ e2 hz
          · exact absurd h (by simp)

theorem maxvol_eq_ok (n r : ℕ) (A : Matrix (Fin n) (Fin r) ℚ) (tol : ℚ)
    (max_iters : ℕ) (htol : 1 ≤ tol) (hrn : r ≤ n)
    (hlu : exOk (luRun n r A hrn) = true) :
    maxvol n r A tol max_iters = .ok (mvRun n r tol max_iters (mvInit n r A hrn)) := by
  obtain ⟨st, hst⟩ := exOk_ok _ hlu
  unfold maxvol
  rw [if_neg (not_lt.2 htol), dif_pos hrn, hst]
  exact mvLoop_ok_of_tol n r tol htol max_iters (mvInit n r A hrn)

/-! ### Append update lemmas: the rectangular extender's invariants -/

theorem rdot_self (n : ℕ) (s : RState n) (i : Fin n) : rdot s i i = rowNormSq s i := by
  unfold rdot rowNormSq
  exact Finset.sum_congr rfl fun b _ => (pow_two (s.C i b)).symm

theorem rowNormSq_nonneg (n : ℕ) (s : RState n) (a : Fin n) : 0 ≤ rowNormSq s a :=
  Finset.sum_nonneg fun b _ => sq_nonneg (s.C a b)

theorem one_add_normSq_pos (n : ℕ) (s : RState n) (i : Fin n) :
    0 < 1 + rowNormSq s i := by
  have := rowNormSq_nonneg n s i
  linarith

theorem recon_rectAppend (n r : ℕ) (A : Matrix (Fin n) (Fin r) ℚ) (s : RState n)
    (hC : s.C * A.submatrix s.P id = A) (i : Fin n) :
    (rectAppend s i).C * A.submatrix (rectAppend s i).P id = A := by
  have hrow : ∀ (a : Fin n) (c : Fin r), ∑ b, s.C a b * A (s.P b) c = A a c := by
    intro a c
    have h1 := congrFun (congrFun hC a) c
    rw [Matrix.mul_apply] at h1
    simpa using h1
  show (Matrix.of fun a =>
      Fin.snoc (fun b => s.C a b - 1 / (1 + rdot s i i) * rdot s a i * s.C i b)
        (1 / (1 + rdot s i i) * rdot s a i)) *
      A.submatrix (Fin.snoc s.P i : Fin (s.k + 1) → Fin n) id = A
  ext a c
  rw [Matrix.mul_apply, Fin.sum_univ_castSucc]
  simp only [Matrix.of_apply, Fin.snoc_castSucc, Fin.snoc_last, Matrix.submatrix_apply, id_eq]
  have hexp : ∑ b : Fin s.k,
      (s.C a b - 1 / (1 + rdot s i i) * rdot s a i * s.C i b) * A (s.P b) c
      = (∑ b, s.C a b * A (s.P b) c) -
          1 / (1 + rdot s i i) * rdot s a i * ∑ b, s.C i b * A (s.P b) c := by
    rw [Finset.mul_sum, ← Finset.sum_sub_distrib]
    exact Finset.sum_congr rfl fun b _ => by ring
  rw [hexp, hrow a c, hrow i c]
  ring

theorem inj_snoc (n k : ℕ) (P : Fin k → Fin n) (hP : Function.Injective P)
    (i : Fin n) (hi : ∀ b, P b ≠ i) :
    Function.Injective (Fin.snoc P i : Fin (k + 1) → Fin n) := by
  intro a b hab
  induction a using Fin.lastCases with
  | last =>
      induction b using Fin.lastCases with
      | last => rfl
      | cast b =>
          rw [Fin.snoc_last, Fin.snoc_castSucc] at hab
          exact absurd hab.symm (hi b)
  | cast a =>
      induction b using Fin.lastCases with
      | last =>
          rw [Fin.snoc_castSucc, Fin.snoc_last] at hab
          exact absurd hab (hi a)
      | cast b =>
          rw [Fin.snoc_castSucc, Fin.snoc_castSucc] at hab
          rw [hP hab]

theorem rectPick_some (n : ℕ) (s : RState n) (i : Fin n) (h : rectPick s = some i) :
    ∀ b, s.P b ≠ i := by
  have hm := listArgmax_mem _ _ _ h
  have := (List.mem_filter.1 hm).2
  simpa using this

theorem sum_sub_mul_sq (k : ℕ) (x y : Fin k → ℚ) (q : ℚ) :
    ∑ b, (x b - q * y b) ^ 2 =
      (∑ b, x b ^ 2) - 2 * q * (∑ b, x b * y b) + q ^ 2 * ∑ b, y b ^ 2 := by
  have h1 : ∀ b, (x b - q * y b) ^ 2 =
      x b ^ 2 - 2 * q * (x b * y b) + q ^ 2 * y b ^ 2 := fun b => by ring
  calc ∑ b, (x b - q * y b) ^ 2
      = ∑ b, (x b ^ 2 - 2 * q * (x b * y b) + q ^ 2 * y b ^ 2) :=
        Finset.sum_congr rfl fun b _ => h1 b
    _ = (∑ b, (x b ^ 2 - 2 * q * (x b * y b))) + ∑ b, q ^ 2 * y b ^ 2 :=
        Finset.sum_add_distrib
    _ = ((∑ b, x b ^ 2) - ∑ b, 2 * q * (x b * y b)) + ∑ b, q ^ 2 * y b ^ 2 := by
        rw [Finset.sum_sub_distrib]
    _ = (∑ b, x b ^ 2) - 2 * q * (∑ b, x b * y b) + q ^ 2 * ∑ b, y b ^ 2 := by
        rw [← Finset.mul_sum, ← Finset.mul_sum]

theorem rowNormSq_rectAppend (n : ℕ) (s : RState n) (i a : Fin n) :
    rowNormSq (rectAppend s i) a =
      rowNormSq s a - rdot s a i ^ 2 / (1 + rowNormSq s i) := by
  have hpos := one_add_normSq_pos n s i
  have hne : (1 : ℚ) + rowNormSq s i ≠ 0 := ne_of_gt hpos
  show ∑ b : Fin (s.k + 1),
      ((Fin.snoc (fun b => s.C a b - 1 / (1 + rdot s i i) * rdot s a i * s.C i b)
        (1 / (1 + rdot s i i) * rdot s a i) : Fin (s.k + 1) → ℚ) b) ^ 2 =
      rowNormSq s a - rdot s a i ^ 2 / (1 + rowNormSq s i)
  rw [Fin.sum_univ_castSucc]
  simp only [Fin.snoc_castSucc, Fin.snoc_last]
  rw [sum_sub_mul_sq s.k (fun b => s.C a b) (fun b => s.C i b)
    (1 / (1 + rdot s i i) * rdot s a i), rdot_self n s i]
  show rowNormSq s a - 2 * (1 / (1 + rowNormSq s i) * rdot s a i) * rdot s a i +
      (1 / (1 + rowNormSq s i) * rdot s a i) ^ 2 * rowNormSq s i +
      (1 / (1 + rowNormSq s i) * rdot s a i) ^ 2 =
      rowNormSq s a - rdot s a i ^ 2 / (1 + rowNormSq s i)
  field_simp
  ring

theorem rowNormSq_rectAppend_le (n : ℕ) (s : RState n) (i a : Fin n) :
    rowNormSq (rectAppend s i) a ≤ rowNormSq s a := by
  rw [rowNormSq_rectAppend]
  have h1 : 0 ≤ rdot s a i ^ 2 / (1 + rowNormSq s i) :=
    div_nonneg (sq_nonneg _) (le_of_lt (one_add_normSq_pos n s i))
  linarith

theorem maxNormSq_rectAppend_le (n : ℕ) (s : RState n) (i : Fin n) :
    maxNormSq (rectAppend s i) ≤ maxNormSq s := by
  unfold maxNormSq
  exact foldr_max_map_le (List.finRange n) _ _
    fun a _ => rowNormSq_rectAppend_le n s i a

theorem maxNormSq_rectStep_le (n : ℕ) (tol2 : ℚ) (minK maxK : ℕ) (s : RState n) :
    maxNormSq (rectStep n tol2 minK maxK s) ≤ maxNormSq s := by
  unfold rectStep
  by_cases hg : rectGrow tol2 minK maxK s = true
  · rw [if_pos hg]
    cases hp : rectPick s with
    | none => exact le_refl _
    | some i => exact maxNormSq_rectAppend_le n s i
  · rw [if_neg hg]

theorem rinv_rectStep (n r : ℕ) (A : Matrix (Fin n) (Fin r) ℚ) (tol2 : ℚ)
    (minK maxK : ℕ) (s : RState n) (h : RInv n r A s) :
    RInv n r A (rectStep n tol2 minK maxK s) := by
  obtain ⟨hrec, hinj⟩ := h
  unfold rectStep
  by_cases hg : rectGrow tol2 minK maxK s = true
  · rw [if_pos hg]
    cases hp : rectPick s with
    | none => exact ⟨hrec, hinj⟩
    | some i =>
        exact ⟨recon_rectAppend n r A s hrec i,
          inj_snoc n s.k s.P hinj i (rectPick_some n s i hp)⟩
  · rw [if_neg hg]
    exact ⟨hrec, hinj⟩

theorem rinv_iterate (n r : ℕ) (A : Matrix (Fin n) (Fin r) ℚ) (tol2 : ℚ)
    (minK maxK : ℕ) (s : RState n) (h : RInv n r A s) :
    ∀ t : ℕ, RInv n r A ((rectStep n tol2 minK maxK)^[t] s) := by
  intro t
  induction t with
  | zero => exact h
  | succ t ih =>
      rw [Function.iterate_succ_apply']
      exact rinv_rectStep n r A tol2 minK maxK _ ih

theorem rectPick_isSome (n : ℕ) (s : RState n) (hinj : Function.Injective s.P)
    (hkn : s.k < n) : (rectPick s).isSome = true := by
  have hex : ∃ i : Fin n, ∀ b, s.P b ≠ i := by
    by_contra hall
    push_neg at hall
    have hsurj : Function.Surjective s.P := fun i => hall i
    have hcard := Fintype.card_le_of_surjective s.P hsurj
    simp only [Fintype.card_fin] at hcard
    omega
  obtain ⟨i, hi⟩ := hex
  have hm : i ∈ rectCands s :=
    List.mem_filter.2 ⟨List.mem_finRange i, by simpa using hi⟩
  cases hc : rectCands s with
  | nil =>
      rw [hc] at hm
      exact absurd hm (by simp)
  | cons x xs =>
      unfold rectPick
      rw [hc]
      exact listArgmax_isSome _ x xs

/-! ### Run lemmas for the rectangular loop and the top-level functions -/

theorem rectLoop_spec (n : ℕ) (tol2 : ℚ) (minK maxK : ℕ) :
    ∀ (f : ℕ) (s : RState n),
      (rectLoop n tol2 minK maxK f s).1 =
        (rectStep n tol2 minK maxK)^[(rectLoop n tol2 minK maxK f s).2] s ∧
      (rectLoop n tol2 minK maxK f s).1.k = s.k + (rectLoop n tol2 minK maxK f s).2 ∧
      (rectLoop n tol2 minK maxK f s).1.k ≤ max s.k maxK
  | 0, s => ⟨rfl, rfl, le_max_left _ _⟩
  | f + 1, s => by
      by_cases hg : rectGrow tol2 minK maxK s = true
      · cases hp : rectPick s with
        | none =>
            have he : rectLoop n tol2 minK maxK (f + 1) s = (s, 0) := by
              conv_lhs => rw [rectLoop]
              rw [if_pos hg, hp]
            rw [he]
            exact ⟨rfl, rfl, le_max_left _ _⟩
        | some i =>
            have he : rectLoop n tol2 minK maxK (f + 1) s =
                ((rectLoop n tol2 minK maxK f (rectAppend s i)).1,
                  (rectLoop n tol2 minK maxK f (rectAppend s i)).2 + 1) := by
              conv_lhs => rw [rectLoop]
              rw [if_pos hg, hp]
            obtain ⟨ih1, ih2, ih3⟩ := rectLoop_spec n tol2 minK maxK f (rectAppend s i)
            rw [he]
            have hstep : rectAppend s i = rectStep n tol2 minK maxK s := by
              unfold rectStep
              rw [if_pos hg, hp]
            have hk1 : (rectAppend s i).k = s.k + 1 := rfl
            have hk : s.k < maxK := by
              unfold rectGrow at hg
              rw [decide_eq_true_eq] at hg
              exact hg.1
            refine ⟨?_, ?_, ?_⟩
            · rw [ih1, hstep, ← Function.iterate_succ_apply]
            · rw [ih2, hk1]
              omega
            · calc (rectLoop n tol2 minK maxK f (rectAppend s i)).1.k
                  ≤ max (rectAppend s i).k maxK := ih3
                _ = max (s.k + 1) maxK := by rw [hk1]
                _ = maxK := max_eq_right (by omega)
                _ ≤ max s.k maxK := le_max_right _ _
      · have he : rectLoop n tol2 minK maxK (f + 1) s = (s, 0) := by
          conv_lhs => rw [rectLoop]
          rw [if_neg hg]
        rw [he]
        exact ⟨rfl, rfl, le_max_left _ _⟩

theorem rectLoop_exit (n : ℕ) (tol2 : ℚ) (minK maxK : ℕ) (hkn : maxK ≤ n) :
    ∀ (f : ℕ) (s : RState n), Function.Injective s.P → maxK ≤ s.k + f →
      rectGrow tol2 minK maxK (rectLoop n tol2 minK maxK f s).1 = false
  | 0, s, _, hf => by
      show rectGrow tol2 minK maxK s = false
      unfold rectGrow
      exact decide_eq_false fun hc => absurd hc.1 (by omega)
  | f + 1, s, hinj, hf => by
      by_cases hg : rectGrow tol2 minK maxK s = true
      · cases hp : rectPick s with
        | none =>
            have hk : s.k < maxK := by
              unfold rectGrow at hg
              rw [decide_eq_true_eq] at hg
              exact hg.1
            have hs := rectPick_isSome n s hinj (lt_of_lt_of_le hk hkn)
            rw [hp] at hs
            exact absurd hs (by simp)
        | some i =>
            have he : rectLoop n tol2 minK maxK (f + 1) s =
                ((rectLoop n tol2 minK maxK f (rectAppend s i)).1,
                  (rectLoop n tol2 minK maxK f (rectAppend s i)).2 + 1) := by
              conv_lhs => rw [rectLoop]
              rw [if_pos hg, hp]
            rw [he]
            refine rectLoop_exit n tol2 minK maxK hkn f (rectAppend s i) ?_ ?_
            · exact inj_snoc n s.k s.P hinj i (rectPick_some n s i hp)
            · have hk1 : (rectAppend s i).k = s.k + 1 := rfl
              omega
      · have he : rectLoop n tol2 minK maxK (f + 1) s = (s, 0) := by
          conv_lhs => rw [rectLoop]
          rw [if_neg hg]
        rw [he]
        exact Bool.eq_false_iff.2 hg

theorem rect_maxvol_eq_ok (n r : ℕ) (A : Matrix (Fin n) (Fin r) ℚ) (tol : ℚ)
    (minK maxK : ℕ) (start_tol : ℚ) (start_iters : ℕ)
    (htol : 1 ≤ tol) (hkk : minK ≤ maxK) (hkn : maxK ≤ n) (hrn : r ≤ n)
    (hlu : exOk (luRun n r A hrn) = true) (hst : 1 ≤ start_tol) :
    rect_maxvol n r A tol minK maxK start_tol start_iters =
      .ok (rectLoop n (tol * tol) minK maxK maxK
        (rectInit n r A hrn start_tol start_iters)) := by
  obtain ⟨st, hstq⟩ := exOk_ok _ hlu
  unfold rect_maxvol
  have hval : ¬(tol < 1 ∨ minK > maxK ∨ maxK > n) := by
    push_neg
    exact ⟨htol, hkk, hkn⟩
  rw [if_neg hval, dif_pos hrn, hstq, mvLoop_ok_of_tol n r start_tol hst]

theorem rect_maxvol_ok_val (n r : ℕ) (A : Matrix (Fin n) (Fin r) ℚ) (tol : ℚ)
    (minK maxK : ℕ) (start_tol : ℚ) (start_iters : ℕ) (z : RState n × ℕ)
    (h : rect_maxvol n r A tol minK maxK start_tol start_iters = .ok z) :
    ∃ hrn : r ≤ n, maxK ≤ n ∧
      z = rectLoop n (tol * tol) minK maxK maxK
        (rectInit n r A hrn start_tol start_iters) := by
  unfold rect_maxvol at h
  split at h
  · exact absurd h (by simp)
  · rename_i hval
    split at h
    · rename_i hrn
      split at h
      · exact absurd h (by simp)
      · split at h
        · exact absurd h (by simp)
        · refine ⟨hrn, ?_, (Except.ok.inj h).symm⟩
          push_neg at hval
          exact hval.2.2
    · exact absurd h (by simp)

theorem luRun_error (n r : ℕ) (A : Matrix (Fin n) (Fin r) ℚ) (hrn : r ≤ n)
    (e : MvError) (h : luRun n r A hrn = .error e) : e = .rankDeficient :=
  luGo_error n r (List.finRange r) _ e h

theorem maxvol_invalid_iff (n r : ℕ) (A : Matrix (Fin n) (Fin r) ℚ) (tol : ℚ)
    (max_iters : ℕ) :
    maxvol n r A tol max_iters = .error .invalidParameter ↔ (tol < 1 ∨ n < r) := by
  unfold maxvol
  by_cases h1 : tol < 1
  · rw [if_pos h1]
    exact ⟨fun _ => Or.inl h1, fun _ => rfl⟩
  · rw [if_neg h1]
    by_cases h2 : r ≤ n
    · rw [dif_pos h2]
      constructor
      · intro h
        exfalso
        split at h
        · rename_i e hl
          have he := Except.error.inj h
          have := luRun_error n r A h2 e hl
          rw [this] at he
          exact absurd he (by simp)
        · have he := mvLoop_error n r tol max_iters _ _ h
          exact absurd he (by simp)
      · intro hc
        rcases hc with h | h
        · exact absurd h h1
        · exact absurd h2 (by omega)
    · rw [dif_neg h2]
      exact ⟨fun _ => Or.inr (by omega), fun _ => rfl⟩

theorem rect_maxvol_invalid_iff (n r : ℕ) (A : Matrix (Fin n) (Fin r) ℚ) (tol : ℚ)
    (minK maxK : ℕ) (start_tol : ℚ) (start_iters : ℕ) :
    rect_maxvol n r A tol minK maxK start_tol start_iters = .error .invalidParameter ↔
      (tol < 1 ∨ minK > maxK ∨ maxK > n ∨ n < r) := by
  unfold rect_maxvol
  by_cases hval : tol < 1 ∨ minK > maxK ∨ maxK > n
  · rw [if_pos hval]
    constructor
    · intro _
      rcases hval with h | h | h
      · exact Or.inl h
      · exact Or.inr (Or.inl h)
      · exact Or.inr (Or.inr (Or.inl h))
    · intro _
      rfl
  · rw [if_neg hval]
    by_cases hrn : r ≤ n
    · rw [dif_pos hrn]
      constructor
      · intro h
        exfalso
        split at h
        · rename_i e hl
          have he := Except.error.inj h
          have := luRun_error n r A hrn e hl
          rw [this] at he
          exact absurd he (by simp)
        · split at h
          · rename_i e hl
            have he := Except.error.inj h
            have := mvLoop_error n r start_tol start_iters _ _ hl
            rw [this] at he
            exact absurd he (by simp)
          · exact absurd h (by simp)
      · intro hc
        rcases hc with h | h | h | h
        · exact absurd (Or.inl h) hval
        · exact absurd (Or.inr (Or.inl h)) hval
        · exact absurd (Or.inr (Or.inr h)) hval
        · exact absurd hrn (by omega)
    · rw [dif_neg hrn]
      constructor
      · intro _
        exact Or.inr (Or.inr (Or.inr (by omega)))
      · intro _
        rfl

/-! ### Remaining helper lemmas for the claims -/

theorem maxvol_ok_val (n r : ℕ) (A : Matrix (Fin n) (Fin r) ℚ) (tol : ℚ)
    (max_iters : ℕ) (z : MS n r × Bool × ℕ)
    (h : maxvol n r A tol max_iters = .ok z) :
    ∃ hrn : r ≤ n, z = mvRun n r tol max_iters (mvInit n r A hrn) := by
  unfold maxvol at h
  split at h
  · exact absurd h (by simp)
  · split at h
    · rename_i hrn
      split at h
      · exact absurd h (by simp)
      · exact ⟨hrn, mvLoop_ok_val n r tol max_iters _ z h⟩
    · exact absurd h (by simp)

theorem det_mvStep (n r : ℕ) (A : Matrix (Fin n) (Fin r) ℚ) (tol : ℚ)
    (htol : 1 ≤ tol) (s : MS n r) (h : MInv n r A s) :
    |detQ r (A.submatrix s.1 id)| ≤ |detQ r (A.submatrix (mvStep n r tol s).1 id)| := by
  obtain ⟨hrec, _, _⟩ := h
  unfold mvStep
  cases hfp : findPivot n r tol s.1 s.2 with
  | none => exact le_refl _
  | some p =>
      obtain ⟨hip, hlt⟩ := findPivot_some n r tol s.1 s.2 p hfp
      show |detQ r (A.submatrix s.1 id)| ≤
        |detQ r (A.submatrix (Function.update s.1 p.2 p.1) id)|
      have hsub : A.submatrix (Function.update s.1 p.2 p.1) id =
          (A.submatrix s.1 id).updateRow p.2 (fun c => A p.1 c) := by
        ext b c
        by_cases hb : b = p.2
        · rw [hb, Matrix.submatrix_apply, id_eq, Function.update_same, Matrix.updateRow_self]
        · rw [Matrix.submatrix_apply, Function.update_noteq hb, Matrix.updateRow_ne hb,
            Matrix.submatrix_apply]
      have hAi : (fun c => A p.1 c) = ∑ b, s.2 p.1 b • (A.submatrix s.1 id) b := by
        funext c
        have h1 := congrFun (congrFun hrec p.1) c
        rw [Matrix.mul_apply] at h1
        rw [Finset.sum_apply, ← h1]
        exact Finset.sum_congr rfl fun b _ => by
          rw [Pi.smul_apply, smul_eq_mul, Matrix.submatrix_apply, id_eq]
      rw [detQ_eq_det, detQ_eq_det, hsub, hAi, Matrix.det_updateRow_sum]
      rw [smul_eq_mul, abs_mul]
      have h1 : 1 ≤ |s.2 p.1 p.2| := le_trans htol (le_of_lt hlt)
      exact le_mul_of_one_le_left (abs_nonneg _) h1

theorem rectGrow_false (n : ℕ) (tol2 : ℚ) (minK maxK : ℕ) (s : RState n)
    (h : rectGrow tol2 minK maxK s = false) :
    maxK ≤ s.k ∨ (minK ≤ s.k ∧ maxNormSq s ≤ tol2) := by
  unfold rectGrow at h
  rw [decide_eq_false_iff_not] at h
  push_neg at h
  by_cases hk : s.k < maxK
  · exact Or.inr (h hk)
  · exact Or.inl (by omega)

theorem rowNormSq_le_maxNormSq (n : ℕ) (s : RState n) (a : Fin n) :
    rowNormSq s a ≤ maxNormSq s :=
  le_foldr_max _ _ (List.mem_map.2 ⟨a, List.mem_finRange a, rfl⟩)

theorem rectInit_inj (n r : ℕ) (A : Matrix (Fin n) (Fin r) ℚ) (hrn : r ≤ n)
    (start_tol : ℚ) (start_iters : ℕ) :
    Function.Injective (rectInit n r A hrn start_tol start_iters).P := by
  obtain ⟨hit, _, _, _⟩ := mvRun_spec n r start_tol start_iters (mvInit n r A hrn)
  show Function.Injective (mvRun n r start_tol start_iters (mvInit n r A hrn)).1.1
  rw [hit]
  exact inj_mvStep_iterate n r start_tol (mvInit n r A hrn) (luP_inj n r A hrn) _

/-! ### Claim theorems -/

/-- C1: for every valid input (the spec's full-column-rank precondition,
operationalized as the initial pivot block being nonsingular) the
reconstruction identity `C · A[pivots] = A` holds — exactly, since the model
computes in exact rational arithmetic — at every point after a completed swap
of the square selector, in `maxvol`'s returned pair, at every point after a
completed append of the rectangular extender, and in `rect_maxvol`'s
returned pair. -/
theorem C1_reconstruction_invariant (n r : ℕ) (A : Matrix (Fin n) (Fin r) ℚ)
    (tol start_tol : ℚ) (max_iters start_iters minK maxK : ℕ) (hrn : r ≤ n)
    (htol : 1 ≤ tol) (hst : 1 ≤ start_tol)
    (hdet : detQ r (A.submatrix (luP n r A hrn) id) ≠ 0) :
    (∀ t : ℕ, Recon n r r A ((mvStep n r tol)^[t] (mvInit n r A hrn)).1
      ((mvStep n r tol)^[t] (mvInit n r A hrn)).2) ∧
    (∀ z, maxvol n r A tol max_iters = .ok z → Recon n r r A z.1.1 z.1.2) ∧
    (∀ t : ℕ,
      ((rectStep n (tol * tol) minK maxK)^[t]
          (rectInit n r A hrn start_tol start_iters)).C *
        A.submatrix
          ((rectStep n (tol * tol) minK maxK)^[t]
            (rectInit n r A hrn start_tol start_iters)).P id = A) ∧
    (∀ z, rect_maxvol n r A tol minK maxK start_tol start_iters = .ok z →
      z.1.C * A.submatrix z.1.P id = A) := by
  have hminv := mvInit_MInv n r A hrn hdet
  have hsq := minv_iterate n r A tol htol _ hminv
  have hsqst := minv_iterate n r A start_tol hst _ hminv
  have hrinit : RInv n r A (rectInit n r A hrn start_tol start_iters) := by
    obtain ⟨hit, _, _, _⟩ := mvRun_spec n r start_tol start_iters (mvInit n r A hrn)
    have hm := hsqst (mvRun n r start_tol start_iters (mvInit n r A hrn)).2.2
    rw [← hit] at hm
    obtain ⟨hrec, hinj, _⟩ := hm
    exact ⟨hrec, hinj⟩
  refine ⟨fun t => (hsq t).1, ?_, ?_, ?_⟩
  · intro z hz
    obtain ⟨_, hzv0⟩ := maxvol_ok_val n r A tol max_iters z hz
    have hzv : z = mvRun n r tol max_iters (mvInit n r A hrn) := hzv0
    obtain ⟨hit, _, _, _⟩ := mvRun_spec n r tol max_iters (mvInit n r A hrn)
    subst hzv
    rw [hit]
    exact (hsq _).1
  · intro t
    exact (rinv_iterate n r A (tol * tol) minK maxK _ hrinit t).1
  · intro z hz
    obtain ⟨hrn2, _, hzv0⟩ :=
      rect_maxvol_ok_val n r A tol minK maxK start_tol start_iters z hz
    have hzv : z = rectLoop n (tol * tol) minK maxK maxK
        (rectInit n r A hrn start_tol start_iters) := hzv0
    obtain ⟨hit, _, _⟩ := rectLoop_spec n (tol * tol) minK maxK maxK
      (rectInit n r A hrn start_tol start_iters)
    subst hzv
    rw [hit]
    exact (rinv_iterate n r A (tol * tol) minK maxK _ hrinit _).1

/-- Witness for C1 at the concrete 2 by 2 input `exA`. -/
theorem C1_reconstruction_invariant_witness :
    ((1 : ℚ) ≤ 21/20) ∧
      (detQ 2 (exA.submatrix (luP 2 2 exA (by norm_num)) id) ≠ 0) ∧
      (∀ z, maxvol 2 2 exA (21/20) 10 = .ok z → Recon 2 2 2 exA z.1.1 z.1.2) :=
  ⟨by norm_num, by with_unfolding_all decide,
    (C1_reconstruction_invariant 2 2 exA (21/20) (21/20) 10 10 2 2 (by norm_num)
      (by norm_num) (by norm_num) (by with_unfolding_all decide)).2.1⟩

/-- C2: on valid input, `maxvol` returns a pivot assignment of exactly `r`
distinct row indices together with an `n × r` coefficient matrix, and when
the run converged within the iteration budget every entry of `C` has absolute
value at most `tol`. -/
theorem C2_maxvol_output_contract (n r : ℕ) (A : Matrix (Fin n) (Fin r) ℚ)
    (tol : ℚ) (max_iters : ℕ) (hrn : r ≤ n) (htol : 1 ≤ tol)
    (hdet : detQ r (A.submatrix (luP n r A hrn) id) ≠ 0) :
    ∀ z, maxvol n r A tol max_iters = .ok z →
      Function.Injective z.1.1 ∧
      (z.2.1 = true → ∀ (a : Fin n) (c : Fin r), |z.1.2 a c| ≤ tol) := by
  intro z hz
  obtain ⟨_, hzv0⟩ := maxvol_ok_val n r A tol max_iters z hz
  have hzv : z = mvRun n r tol max_iters (mvInit n r A hrn) := hzv0
  obtain ⟨hit, _, _, hconv⟩ := mvRun_spec n r tol max_iters (mvInit n r A hrn)
  have hminv := minv_iterate n r A tol htol _ (mvInit_MInv n r A hrn hdet)
    (mvRun n r tol max_iters (mvInit n r A hrn)).2.2
  rw [← hit] at hminv
  obtain ⟨hrec, hinj, hbas⟩ := hminv
  subst hzv
  refine ⟨hinj, fun hcv a c => ?_⟩
  have hfp := hconv hcv
  by_cases ha : ∀ b, (mvRun n r tol max_iters (mvInit n r A hrn)).1.1 b ≠ a
  · exact findPivot_none n r tol _ _ hfp a ha c
  · push_neg at ha
    obtain ⟨b, hb⟩ := ha
    rw [← hb, hbas b c]
    by_cases hbc : b = c
    · rw [if_pos hbc, abs_one]
      exact htol
    · rw [if_neg hbc, abs_zero]
      linarith

/-- Witness for C2 at the concrete 2 by 2 input `exA`. -/
theorem C2_maxvol_output_contract_witness :
    ((1 : ℚ) ≤ 21/20) ∧
      (detQ 2 (exA.submatrix (luP 2 2 exA (by norm_num)) id) ≠ 0) ∧
      (∀ z, maxvol 2 2 exA (21/20) 10 = .ok z →
        Function.Injective z.1.1 ∧
        (z.2.1 = true → ∀ (a : Fin 2) (c : Fin 2), |z.1.2 a c| ≤ 21/20)) :=
  ⟨by norm_num, by with_unfolding_all decide,
    C2_maxvol_output_contract 2 2 exA (21/20) 10 (by norm_num) (by norm_num)
      (by with_unfolding_all decide)⟩

/-- C3: whenever `rect_maxvol` returns, the pivot count `k` satisfies
`r ≤ k ≤ max_k` (given the implicit validity condition `r ≤ max_k` of the
spec's data model), and unless the run stopped because it hit the size budget
`max_k`, the returned state is converged: `k ≥ min_k` and every squared row
norm of `C` is at most `tol²`. -/
theorem C3_rect_output_contract (n r : ℕ) (A : Matrix (Fin n) (Fin r) ℚ)
    (tol : ℚ) (minK maxK : ℕ) (start_tol : ℚ) (start_iters : ℕ)
    (hrk : r ≤ maxK) :
    ∀ z, rect_maxvol n r A tol minK maxK start_tol start_iters = .ok z →
      r ≤ z.1.k ∧ z.1.k ≤ maxK ∧
        (z.1.k = maxK ∨
          (minK ≤ z.1.k ∧ ∀ a, rowNormSq z.1 a ≤ tol * tol)) := by
  intro z hz
  obtain ⟨hrn, hkn, hzv⟩ :=
    rect_maxvol_ok_val n r A tol minK maxK start_tol start_iters z hz
  obtain ⟨hit, hcount, hbound⟩ := rectLoop_spec n (tol * tol) minK maxK maxK
    (rectInit n r A hrn start_tol start_iters)
  have hkr : (rectInit n r A hrn start_tol start_iters).k = r := rfl
  have hexit := rectLoop_exit n (tol * tol) minK maxK hkn maxK
    (rectInit n r A hrn start_tol start_iters)
    (rectInit_inj n r A hrn start_tol start_iters) (by rw [hkr]; omega)
  have hgrow := rectGrow_false n (tol * tol) minK maxK _ hexit
  subst hzv
  rw [hkr] at hcount hbound
  rw [max_eq_right hrk] at hbound
  refine ⟨by omega, hbound, ?_⟩
  rcases hgrow with h | h
  · exact Or.inl (by omega)
  · exact Or.inr ⟨h.1, fun a => le_trans (rowNormSq_le_maxNormSq n _ a) h.2⟩

/-- Witness for C3 at the concrete 3 by 2 input `exB` (where one append
happens and the run stops at the size budget). -/
theorem C3_rect_output_contract_witness :
    ((2 : ℕ) ≤ 3) ∧ (exOk (rect_maxvol 3 2 exB 1 2 3 (21/20) 10) = true) ∧
      (∀ z, rect_maxvol 3 2 exB 1 2 3 (21/20) 10 = .ok z →
        2 ≤ z.1.k ∧ z.1.k ≤ 3 ∧
          (z.1.k = 3 ∨ (2 ≤ z.1.k ∧ ∀ a, rowNormSq z.1 a ≤ 1 * 1))) :=
  ⟨by norm_num, by with_unfolding_all decide,
    C3_rect_output_contract 3 2 exB 1 2 3 (21/20) 10 (by norm_num)⟩

/-- C4 (amended): in the square selector the pivot rows of `C` are exactly
the standard basis rows at every stable point — after every completed swap
and in `maxvol`'s returned pair.  In `rect_maxvol`, however, the claim fails:
after an append the coefficient matrix is the least-norm solution, whose
pivot rows are in general not exact basis rows (see the counterexample). -/
theorem C4_pivot_rows_identity (n r : ℕ) (A : Matrix (Fin n) (Fin r) ℚ)
    (tol : ℚ) (max_iters : ℕ) (hrn : r ≤ n) (htol : 1 ≤ tol)
    (hdet : detQ r (A.submatrix (luP n r A hrn) id) ≠ 0) :
    (∀ t : ℕ, BasisRows n r r ((mvStep n r tol)^[t] (mvInit n r A hrn)).1
      ((mvStep n r tol)^[t] (mvInit n r A hrn)).2) ∧
    (∀ z, maxvol n r A tol max_iters = .ok z → BasisRows n r r z.1.1 z.1.2) := by
  have hminv := minv_iterate n r A tol htol _ (mvInit_MInv n r A hrn hdet)
  refine ⟨fun t => (hminv t).2.2, fun z hz => ?_⟩
  obtain ⟨_, hzv0⟩ := maxvol_ok_val n r A tol max_iters z hz
  have hzv : z = mvRun n r tol max_iters (mvInit n r A hrn) := hzv0
  obtain ⟨hit, _, _, _⟩ := mvRun_spec n r tol max_iters (mvInit n r A hrn)
  subst hzv
  rw [hit]
  exact (hminv _).2.2

/-- Witness for C4 at the concrete 2 by 2 input `exA`. -/
theorem C4_pivot_rows_identity_witness :
    ((1 : ℚ) ≤ 21/20) ∧
      (detQ 2 (exA.submatrix (luP 2 2 exA (by norm_num)) id) ≠ 0) ∧
      (∀ z, maxvol 2 2 exA (21/20) 10 = .ok z → BasisRows 2 2 2 z.1.1 z.1.2) :=
  ⟨by norm_num, by with_unfolding_all decide,
    (C4_pivot_rows_identity 2 2 exA (21/20) 10 (by norm_num) (by norm_num)
      (by with_unfolding_all decide)).2⟩

/-- Counterexample to C4 as stated: on the 3 by 2 input `exB`,
`rect_maxvol` (tol 1, min_k 2, max_k 3) appends row 2 and returns a state in
which pivot position 0 still holds row 0, but row 0 of the returned `C` is
`(181/262, -81/262, 45/131)`, not the standard basis row `(1, 0, 0)`. -/
theorem C4_counterexample :
    exOk (rect_maxvol 3 2 exB 1 2 3 (21/20) 10) = true ∧
    (exceptD (⟨0, fun b => b.elim0, fun _ b => b.elim0⟩, 0)
        (rect_maxvol 3 2 exB 1 2 3 (21/20) 10)).1.Pentry 0 = 0 ∧
    (exceptD (⟨0, fun b => b.elim0, fun _ b => b.elim0⟩, 0)
        (rect_maxvol 3 2 exB 1 2 3 (21/20) 10)).1.Centry 0 0 ≠ 1 := by
  refine ⟨?_, ?_, ?_⟩ <;> with_unfolding_all decide

/-- C5 (amended): in `rect_maxvol` the largest squared row norm of `C` is
non-increasing from each append step to the next, and in `maxvol` the volume
`|det(A[P])|` never decreases across swap iterations; the maximum absolute
entry of `C` in `maxvol`, however, can increase from one swap iteration to
the next (see the counterexample). -/
theorem C5_monotonicity (n r : ℕ) (A : Matrix (Fin n) (Fin r) ℚ)
    (tol start_tol : ℚ) (minK maxK start_iters : ℕ) (hrn : r ≤ n)
    (htol : 1 ≤ tol)
    (hdet : detQ r (A.submatrix (luP n r A hrn) id) ≠ 0) :
    (∀ t : ℕ,
      maxNormSq ((rectStep n (tol * tol) minK maxK)^[t + 1]
        (rectInit n r A hrn start_tol start_iters)) ≤
      maxNormSq ((rectStep n (tol * tol) minK maxK)^[t]
        (rectInit n r A hrn start_tol start_iters))) ∧
    (∀ t : ℕ,
      |detQ r (A.submatrix ((mvStep n r tol)^[t] (mvInit n r A hrn)).1 id)| ≤
      |detQ r (A.submatrix ((mvStep n r tol)^[t + 1] (mvInit n r A hrn)).1 id)|) := by
  constructor
  · intro t
    rw [Function.iterate_succ_apply']
    exact maxNormSq_rectStep_le n (tol * tol) minK maxK _
  · intro t
    rw [Function.iterate_succ_apply']
    exact det_mvStep n r A tol htol _
      (minv_iterate n r A tol htol _ (mvInit_MInv n r A hrn hdet) t)

/-- Witness for C5 at the concrete 6 by 3 input `exC` with tol 1. -/
theorem C5_monotonicity_witness :
    ((1 : ℚ) ≤ 1) ∧
      (detQ 3 (exC.submatrix (luP 6 3 exC (by norm_num)) id) ≠ 0) ∧
      (∀ t : ℕ,
        |detQ 3 (exC.submatrix ((mvStep 6 3 1)^[t] (mvInit 6 3 exC (by norm_num))).1 id)| ≤
        |detQ 3 (exC.submatrix ((mvStep 6 3 1)^[t + 1] (mvInit 6 3 exC (by norm_num))).1 id)|) :=
  ⟨le_refl 1, by with_unfolding_all decide,
    (C5_monotonicity 6 3 exC 1 (21/20) 3 6 100 (by norm_num) (by norm_num)
      (by with_unfolding_all decide)).2⟩

/-- Counterexample to C5 as stated: on the 6 by 3 input `exC` with tol 1, the
maximum absolute entry of `C` increases from `24/23` after the first swap to
`9/8` after the second swap (while the run itself performs 4 swaps). -/
theorem C5_counterexample :
    mvMaxAbs 6 3 ((mvStep 6 3 1)^[1] (mvInit 6 3 exC (by norm_num))).2 <
      mvMaxAbs 6 3 ((mvStep 6 3 1)^[2] (mvInit 6 3 exC (by norm_num))).2 ∧
    mvCount 6 3 (maxvol 6 3 exC 1 30) = 4 := by
  refine ⟨?_, ?_⟩ <;> with_unfolding_all decide

/-- C6: both algorithms are bounded: the square loop performs at most
`max_iters` swaps (both as a loop fact and for every successful `maxvol`
call), and the rectangular loop only appends while `|P| < max_k`, so the
final pivot count is `|P| = r + appends` and never exceeds `max (r, max_k)`;
termination itself is structural (both loops recurse on a fuel bound). -/
theorem C6_termination_bounds :
    (∀ (n r : ℕ) (tol : ℚ) (f : ℕ) (s : MS n r), (mvRun n r tol f s).2.2 ≤ f) ∧
    (∀ (n r : ℕ) (A : Matrix (Fin n) (Fin r) ℚ) (tol : ℚ) (it : ℕ),
      mvCount n r (maxvol n r A tol it) ≤ it) ∧
    (∀ (n : ℕ) (tol2 : ℚ) (minK maxK f : ℕ) (s : RState n),
      (rectLoop n tol2 minK maxK f s).1.k = s.k + (rectLoop n tol2 minK maxK f s).2 ∧
      (rectLoop n tol2 minK maxK f s).1.k ≤ max s.k maxK) ∧
    (∀ (n r : ℕ) (A : Matrix (Fin n) (Fin r) ℚ) (tol : ℚ) (minK maxK : ℕ)
      (st : ℚ) (si : ℕ),
      rectK n r (rect_maxvol n r A tol minK maxK st si) ≤ max r maxK) := by
  refine ⟨fun n r tol f s => (mvRun_spec n r tol f s).2.1, ?_, ?_, ?_⟩
  · intro n r A tol it
    cases hm : maxvol n r A tol it with
    | error e => exact Nat.zero_le it
    | ok z =>
        obtain ⟨hrn, hzv⟩ := maxvol_ok_val n r A tol it z hm
        show z.2.2 ≤ it
        rw [hzv]
        exact (mvRun_spec n r tol it (mvInit n r A hrn)).2.1
  · intro n tol2 minK maxK f s
    exact ⟨(rectLoop_spec n tol2 minK maxK f s).2.1,
      (rectLoop_spec n tol2 minK maxK f s).2.2⟩
  · intro n r A tol minK maxK st si
    cases hm : rect_maxvol n r A tol minK maxK st si with
    | error e => exact le_max_left r maxK
    | ok z =>
        obtain ⟨hrn, _, hzv⟩ := rect_maxvol_ok_val n r A tol minK maxK st si z hm
        show z.1.k ≤ max r maxK
        rw [hzv]
        have hb := (rectLoop_spec n (tol * tol) minK maxK maxK
          (rectInit n r A hrn st si)).2.2
        have hkr : (rectInit n r A hrn st si).k = r := rfl
        rw [hkr] at hb
        exact hb

/-- C7: on valid input, `maxvol` always returns `.ok` — exhausting the
iteration budget is not an error.  The returned state is the state reached
after exactly the reported number of swap steps, and when the convergence
flag is false that number is the full budget `max_iters`, so the
current (best-found) pivot set and coefficient matrix are returned exactly
as in the converged case. -/
theorem C7_nonconvergence_not_error (n r : ℕ) (A : Matrix (Fin n) (Fin r) ℚ)
    (tol : ℚ) (max_iters : ℕ) (hrn : r ≤ n) (htol : 1 ≤ tol)
    (hlu : exOk (luRun n r A hrn) = true) :
    maxvol n r A tol max_iters = .ok (mvRun n r tol max_iters (mvInit n r A hrn)) ∧
    ((mvRun n r tol max_iters (mvInit n r A hrn)).2.1 = false →
      (mvRun n r tol max_iters (mvInit n r A hrn)).2.2 = max_iters) ∧
    (mvRun n r tol max_iters (mvInit n r A hrn)).1 =
      (mvStep n r tol)^[(mvRun n r tol max_iters (mvInit n r A hrn)).2.2]
        (mvInit n r A hrn) := by
  obtain ⟨h1, _, h3, _⟩ := mvRun_spec n r tol max_iters (mvInit n r A hrn)
  exact ⟨maxvol_eq_ok n r A tol max_iters htol hrn hlu, h3, h1⟩

/-- Witness for C7 at the concrete 6 by 3 input `exC` with a budget of 2
iterations, which is exhausted without convergence. -/
theorem C7_nonconvergence_not_error_witness :
    ((1 : ℚ) ≤ 1) ∧ (exOk (luRun 6 3 exC (by norm_num)) = true) ∧
      (maxvol 6 3 exC 1 2 = .ok (mvRun 6 3 1 2 (mvInit 6 3 exC (by norm_num))) ∧
        ((mvRun 6 3 1 2 (mvInit 6 3 exC (by norm_num))).2.1 = false →
          (mvRun 6 3 1 2 (mvInit 6 3 exC (by norm_num))).2.2 = 2) ∧
        (mvRun 6 3 1 2 (mvInit 6 3 exC (by norm_num))).1 =
          (mvStep 6 3 1)^[(mvRun 6 3 1 2 (mvInit 6 3 exC (by norm_num))).2.2]
            (mvInit 6 3 exC (by norm_num))) :=
  ⟨le_refl 1, by with_unfolding_all decide,
    C7_nonconvergence_not_error 6 3 exC 1 2 (by norm_num) (le_refl 1)
      (by with_unfolding_all decide)⟩

/-- C8: the functions fail with `invalidParameter` exactly under the spec's
taxonomy conditions — `maxvol` iff `tol < 1` or `r > n`, and `rect_maxvol`
iff `tol < 1`, `min_k > max_k`, `max_k > n` or `r > n`; in particular no
clamping happens, and no other input produces that error (rank deficiency
and near-singular updates surface as their own error values). -/
theorem C8_invalid_parameter_taxonomy (n r : ℕ) (A : Matrix (Fin n) (Fin r) ℚ)
    (tol : ℚ) (max_iters minK maxK : ℕ) (start_tol : ℚ) (start_iters : ℕ) :
    (maxvol n r A tol max_iters = .error .invalidParameter ↔
      (tol < 1 ∨ n < r)) ∧
    (rect_maxvol n r A tol minK maxK start_tol start_iters =
        .error .invalidParameter ↔
      (tol < 1 ∨ minK > maxK ∨ maxK > n ∨ n < r)) :=
  ⟨maxvol_invalid_iff n r A tol max_iters,
    rect_maxvol_invalid_iff n r A tol minK maxK start_tol start_iters⟩

/-- C9 (amended): on a square full-rank input (`n = r`), `maxvol` converges
immediately with zero swap iterations, its pivot assignment is a bijection
onto all `n` rows, and the coefficient matrix restricted to the pivot rows is
the identity (`C (P b) c = δ b c`, so `C` is the permutation matrix inverse
to `P`) — but `C` itself is the identity matrix only when the LU engine's
partial pivoting happens to pick the rows in their natural order (see the
counterexample). -/
theorem C9_square_input (r : ℕ) (A : Matrix (Fin r) (Fin r) ℚ) (tol : ℚ)
    (max_iters : ℕ) (htol : 1 ≤ tol)
    (hlu : exOk (luRun r r A (le_refl r)) = true)
    (hdet : detQ r (A.submatrix (luP r r A (le_refl r)) id) ≠ 0) :
    maxvol r r A tol max_iters = .ok (mvInit r r A (le_refl r), true, 0) ∧
    Function.Bijective (mvInit r r A (le_refl r)).1 ∧
    (mvInit r r A (le_refl r)).2.submatrix (mvInit r r A (le_refl r)).1 id = 1 := by
  have hinj : Function.Injective (mvInit r r A (le_refl r)).1 :=
    luP_inj r r A (le_refl r)
  have hbij : Function.Bijective (mvInit r r A (le_refl r)).1 :=
    Finite.injective_iff_bijective.1 hinj
  have hfp : findPivot r r tol (mvInit r r A (le_refl r)).1
      (mvInit r r A (le_refl r)).2 = none := by
    have hfil : ((List.finRange r).filter
        fun i => decide (∀ b, (mvInit r r A (le_refl r)).1 b ≠ i)) = [] := by
      rw [List.filter_eq_nil_iff]
      intro i _
      simp only [decide_eq_true_eq]
      intro hcontra
      obtain ⟨b, hb⟩ := hbij.2 i
      exact hcontra b hb
    have hc : mvCands r r (mvInit r r A (le_refl r)).1 = [] := by
      unfold mvCands
      rw [hfil]
      rfl
    unfold findPivot
    rw [hc]
    rfl
  refine ⟨?_, hbij, ?_⟩
  · rw [maxvol_eq_ok r r A tol max_iters htol (le_refl r) hlu,
      mvRun_converged r r tol (mvInit r r A (le_refl r)) hfp max_iters]
  · ext b c
    rw [Matrix.submatrix_apply, id_eq, mvInit_basis r r A (le_refl r) hdet b c,
      Matrix.one_apply]

/-- Witness for C9 at the concrete 2 by 2 input `exA`. -/
theorem C9_square_input_witness :
    ((1 : ℚ) ≤ 21/20) ∧ (exOk (luRun 2 2 exA (le_refl 2)) = true) ∧
      (detQ 2 (exA.submatrix (luP 2 2 exA (le_refl 2)) id) ≠ 0) ∧
      (maxvol 2 2 exA (21/20) 10 = .ok (mvInit 2 2 exA (le_refl 2), true, 0) ∧
        Function.Bijective (mvInit 2 2 exA (le_refl 2)).1 ∧
        (mvInit 2 2 exA (le_refl 2)).2.submatrix (mvInit 2 2 exA (le_refl 2)).1 id = 1) :=
  ⟨by norm_num, by with_unfolding_all decide, by with_unfolding_all decide,
    C9_square_input 2 exA (21/20) 10 (by norm_num) (by with_unfolding_all decide)
      (by with_unfolding_all decide)⟩

/-- Counterexample to C9 as stated: on the square input `exA = [[1,2],[3,4]]`
partial pivoting picks row 1 first, so `maxvol` returns (with zero swap
iterations) the pivot order `(1, 0)` and the permutation matrix
`[[0,1],[1,0]]` as `C` — not the identity matrix. -/
theorem C9_counterexample :
    exOk (maxvol 2 2 exA (21/20) 10) = true ∧
    (exceptD ((id, 0), false, 0) (maxvol 2 2 exA (21/20) 10)).2.2 = 0 ∧
    (exceptD ((id, 0), false, 0) (maxvol 2 2 exA (21/20) 10)).1.2 ≠ 1 := by
  refine ⟨?_, ?_, ?_⟩ <;> with_unfolding_all decide

/-- C10: backend selection in `maxvolpy/__init__.py` is a single import-time
choice: for either availability of the compiled `_maxvol` extension, both
public names `maxvol` and `rect_maxvol` end up bound (to the compiled backend
when it imports, to the pure-Python backend otherwise), and exactly one
`RuntimeWarning` is emitted in the fallback case and none otherwise. -/
theorem C10_backend_selection :
    ∀ b : Bool,
      ((importMaxvolpy b).warnings =
        if b then [] else [PyWarning.runtimeWarning]) ∧
      ((importMaxvolpy b).warnings.length ≤ 1) ∧
      ((importMaxvolpy b).maxvolBinding =
        if b then PyBackend.cCompiled else PyBackend.purePython) ∧
      ((importMaxvolpy b).rect_maxvolBinding =
        if b then PyBackend.cCompiled else PyBackend.purePython) := by
  intro b
  cases b <;> simp [importMaxvolpy]
